import Mathlib

/-!
Verification of the suggestion-generation and word-level diff/reconciliation
engine of the milkdown suggestions example app.

JavaScript strings are modelled as `List Char` (`Str`); JS `slice`, which
clamps out-of-range indices, is modelled by `List.take`/`List.drop`, which
clamp the same way.  JS numbers appearing here are either integers (string
lengths and offsets, modelled as `Nat`) or decimal constants combined by
`+ - * max` and a half-up rounding (modelled exactly as `Rat`).

Source files embedded:
- backend/src/utils/diffCalculator.js   (tokenize, calculateWordDiff,
  mergeAdjacentChanges, getReasonForChange and its helpers)
- backend/src/services/suggestionService.js (generateSuggestions, selectRules,
  applyRules, getModelName, calculateConfidence)
- backend/src/utils/suggestionRules.js  (the four rule sets)
- frontend/src/components/EditorWithSuggestions.jsx (applyChangesToContent)

The word-level edit script itself is produced by `diffWords` of the external
npm package `diff`, whose source is not part of this repository; it is
modelled from the spec (see `diffWordsM`).
-/

namespace Milkdown

/-- JS strings as lists of (UTF-16-ish) characters. -/
abbrev Str := List Char

/-- Literal helper: a Lean string literal as a `Str`. -/
def chars (s : String) : Str := s.toList

/-- The apostrophe character, built by code so it appears in no literal. -/
def apos : Char := Char.ofNat 39

/-- JS regex `\w`: ASCII letters, digits and underscore. -/
def isWordChar (c : Char) : Bool :=
  (('a' ≤ c && c ≤ 'z') || ('A' ≤ c && c ≤ 'Z') || ('0' ≤ c && c ≤ '9') || c = '_')

/-- JS regex `\s` (restricted to its ASCII part): space, tab, newline,
carriage return, vertical tab, form feed. -/
def isSpaceChar (c : Char) : Bool :=
  (c = ' ' || c = Char.ofNat 9 || c = Char.ofNat 10 || c = Char.ofNat 13 ||
   c = Char.ofNat 11 || c = Char.ofNat 12)

/-- Character classes used by the tokenizer regex `(\w+|[^\w\s]+|\s+)`. -/
inductive CClass | word | space | punct
deriving DecidableEq, Repr

def charClass (c : Char) : CClass :=
  if isWordChar c then .word else if isSpaceChar c then .space else .punct

/-- ASCII lowercasing, the fragment of JS `toLowerCase` the rules exercise. -/
def toLowerC (c : Char) : Char :=
  if 'A' ≤ c && c ≤ 'Z' then Char.ofNat (c.toNat + 32) else c

def lowerS (s : Str) : Str := s.map toLowerC

/-- Token kinds assigned by `tokenize` in diffCalculator.js. -/
inductive TKind | word | whitespace | punctuation
deriving DecidableEq, Repr

/-- A token as produced by `tokenize`: its text, the `start`/`end` offsets
(the source field `end` is called `stop` here because `end` is a Lean
keyword) and its kind. -/
structure Token where
  value : Str
  start : Nat
  stop : Nat
  kind : TKind
deriving DecidableEq, Repr

def kindOfClass : CClass → TKind
  | .word => .word
  | .space => .whitespace
  | .punct => .punctuation

theorem dropWhile_length_le (p : Char → Bool) (l : Str) :
    (l.dropWhile p).length ≤ l.length := by
  induction l with
  | nil => simp [List.dropWhile]
  | cons c cs ih =>
    simp only [List.dropWhile]
    cases p c with
    | true => exact Nat.le_succ_of_le ih
    | false => simp

/-- `tokenize` of diffCalculator.js: the regex `(\w+|[^\w\s]+|\s+)/g` emits
maximal runs of a single character class, tagged with offsets; a run of word
characters gets kind `word`, a whitespace run `whitespace`, anything else
`punctuation`.  (The recursion is fuelled so that it stays structural and
kernel-computable; `tokenize` supplies fuel `s.length`, which always
suffices since every emitted token consumes at least one character.) -/
def tokenizeF : Nat → Nat → Str → List Token
  | 0, _, _ => []
  | _ + 1, _, [] => []
  | f + 1, pos, c :: cs =>
    let run := cs.takeWhile (fun d => charClass d = charClass c)
    let rest := cs.dropWhile (fun d => charClass d = charClass c)
    { value := c :: run, start := pos, stop := pos + (c :: run).length,
      kind := kindOfClass (charClass c) } :: tokenizeF f (pos + (c :: run).length) rest

def tokenize (s : Str) : List Token := tokenizeF s.length 0 s

/-- The token texts, in order — the sequences the word diff aligns. -/
def tokenVals (s : Str) : List Str := (tokenize s).map Token.value

/-! ## The word-level edit script

`calculateWordDiff` obtains its edit script from `diffWords` of the npm
package `diff`, which is not part of this repository.  The definitions of
this section are therefore *modelled from the spec* (§4.2): tokenize both
strings with the tokenizer above, align the two token sequences with an
LCS-based minimal edit script (deterministic, leftmost-anchored), and emit
maximal runs — a deleted run directly followed by the inserted run of the
same gap, with common runs between gaps. -/

/-- One aligned position of the edit script: a token kept, deleted or
inserted. -/
inductive Step
  | common (v : Str)
  | del (v : Str)
  | ins (v : Str)
deriving DecidableEq, Repr

/-- Length table of longest common subsequences of suffixes:
`(suffLCS xs ys).headD 0 = |LCS xs ys|`, row indexed by suffixes of `ys`. -/
def buildRow (x : Str) : List Str → List Nat → List Nat
  | [], _ => [0]
  | y :: ys', prev =>
    let rest := buildRow x ys' prev.tail
    let cur := if x = y then prev.tail.headD 0 + 1
               else max (prev.headD 0) (rest.headD 0)
    cur :: rest

def suffLCS : List Str → List Str → List Nat
  | [], ys => List.replicate (ys.length + 1) 0
  | x :: xs', ys => buildRow x ys (suffLCS xs' ys)

def lcsLen (xs ys : List Str) : Nat := (suffLCS xs ys).headD 0

/-- Modelled from the spec: the minimal edit script between the two token
sequences (fuelled so the recursion is structural; the fuel
`xs.length + ys.length` always suffices).  At a mismatch the side whose
removal keeps the longer common subsequence is consumed; ties prefer the
deletion, anchoring common tokens leftmost and putting deleted runs before
inserted runs exactly as the spec's merge step expects. -/
def diffTF : Nat → List Str → List Str → List Step
  | 0, xs, ys => xs.map .del ++ ys.map .ins
  | _ + 1, [], ys => ys.map .ins
  | _ + 1, x :: xs, [] => (x :: xs).map .del
  | f + 1, x :: xs, y :: ys =>
    if x = y then .common x :: diffTF f xs ys
    else if lcsLen (x :: xs) ys ≤ lcsLen xs (y :: ys) then
      .del x :: diffTF f xs (y :: ys)
    else
      .ins y :: diffTF f (x :: xs) ys

/-- A part of the collapsed script: a maximal common, removed or added run
(the shape of one element of a `diffWords` result). -/
inductive DPart
  | common (v : Str)
  | removed (v : Str)
  | added (v : Str)
deriving DecidableEq, Repr

def DPart.val : DPart → Str
  | .common v => v
  | .removed v => v
  | .added v => v

/-- Insert a deleted token at the front of collapsed parts, merging into the
leading removed run when there is one. -/
def pushDel (v : Str) : List DPart → List DPart
  | .removed w :: ps => .removed (v ++ w) :: ps
  | ps => .removed v :: ps

/-- Insert an inserted token at the front of collapsed parts: it merges into
the leading added run, and it is pushed past a leading removed run so that
within a gap the removed run precedes the added run. -/
def pushIns (v : Str) : List DPart → List DPart
  | .removed w :: ps => .removed w :: pushIns v ps
  | .added w :: ps => .added (v ++ w) :: ps
  | ps => .added v :: ps

/-- Collapse a per-token edit script into runs: deleted runs and inserted
runs of the same gap become one removed and one added part, removed first. -/
def collapse : List Step → List DPart
  | [] => []
  | .common v :: rest => .common v :: collapse rest
  | .del v :: rest => pushDel v (collapse rest)
  | .ins v :: rest => pushIns v (collapse rest)

/-- Modelled from the spec: the behaviour of `diffWords(original, suggested)`
of the external `diff` package as §4.2 describes it — token-level LCS edit
script over this repository's tokenizer, collapsed into maximal runs with
the removed run of a gap preceding its added run. -/
def diffWordsM (a b : Str) : List DPart :=
  collapse (diffTF ((tokenVals a).length + (tokenVals b).length) (tokenVals a) (tokenVals b))

/-! ## Word-boundary pattern tests (the regex `test` calls of the
reason classifier) -/

def isWordO : Option Char → Bool
  | none => false
  | some c => isWordChar c

/-- JS regex `\b` between two adjacent characters (either may be absent at a
string edge): the word-character classes differ. -/
def bndry (a b : Option Char) : Bool := isWordO a != isWordO b

/-- Exact prefix test on character lists. -/
def startsWithS : Str → Str → Bool
  | [], _ => true
  | _ :: _, [] => false
  | p :: ps, c :: cs => p = c && startsWithS ps cs

/-- Case-insensitive (ASCII) prefix test. -/
def startsWithCI : Str → Str → Bool
  | [], _ => true
  | _ :: _, [] => false
  | p :: ps, c :: cs => toLowerC p = toLowerC c && startsWithCI ps cs

/-- Does `\b<pat>` (with `\b<pat>\b` when `endB` and a negative lookahead
`(?!<na>)` when `notAfter = some na`) match anywhere in `s`?  `prev` is the
character before the current scan position. -/
def hasPatRun (pat : Str) (endB : Bool) (notAfter : Option Char) :
    Option Char → Str → Bool
  | _, [] => false
  | prev, c :: cs =>
    (startsWithS pat (c :: cs) && bndry prev pat.head? &&
      (!endB || bndry pat.getLast? ((c :: cs).drop pat.length).head?) &&
      (match notAfter with
       | none => true
       | some ch => ((c :: cs).drop pat.length).head? != some ch))
    || hasPatRun pat endB notAfter (some c) cs

/-- Regex `\b<pat>\b.test(s)` for a literal pattern. -/
def testWordB (pat : String) (s : Str) : Bool := hasPatRun (chars pat) true none none s

/-- Any of several `\b<pat>\b` alternatives, as in `\b(p1|p2|p3)\b`. -/
def testAnyWordB (pats : List String) (s : Str) : Bool :=
  pats.any (fun p => testWordB p s)

/-! ## The reason classifier (getReasonForChange and helpers) -/

/-- The string `it's`, built without an apostrophe literal. -/
def itsContr : Str := chars "it" ++ [apos] ++ chars "s"

/-- `isGrammarCorrection` of diffCalculator.js: a fixed table of
(before-pattern, after-pattern) regex pairs; true when some pair matches
`original` and `suggested` respectively (both already lowercased by the
caller). -/
def isGrammarCorrection (o s : Str) : Bool :=
  (testAnyWordB [ "team are", "group are", "committee are" ] o &&
     testAnyWordB [ "team is", "group is", "committee is" ] s) ||
  (testAnyWordB [ "he were", "she were", "it were" ] o &&
     testAnyWordB [ "he was", "she was", "it was" ] s) ||
  (testWordB "theyre" o && testWordB "their" s) ||
  (hasPatRun (chars "its") true (some apos) none o && hasPatRun itsContr true none none s) ||
  (testWordB "has went" o && testWordB "has gone" s) ||
  (testWordB "has did" o && testWordB "has done" s)

/-- `getGrammarReason` of diffCalculator.js. -/
def getGrammarReason (o s : Str) : String :=
  if testAnyWordB [ "team are", "group are", "committee are" ] o &&
      testAnyWordB [ "team is", "group is", "committee is" ] s then
    "Subject-verb agreement: collective noun is singular"
  else if testWordB "theyre" o && testWordB "their" s then
    "Possessive pronoun required"
  else if testWordB "has went" o && testWordB "has gone" s then
    "Correct past participle"
  else "Grammar correction"

/-- JS `str.split(/\s+/)`: separators are maximal whitespace runs; a leading
or trailing separator contributes an empty element, and `""` splits to
`[""]`. -/
def splitWSF : Nat → Str → Str → List Str
  | 0, acc, _ => [acc.reverse]
  | _ + 1, acc, [] => [acc.reverse]
  | f + 1, acc, c :: cs =>
    if isSpaceChar c then acc.reverse :: splitWSF f [] (cs.dropWhile isSpaceChar)
    else splitWSF f (c :: acc) cs

def splitWS (s : Str) : List Str := splitWSF s.length [] s

/-- The word→preferred-word table of `isWordChoiceImprovement`. -/
def improvements : List (Str × Str) :=
  [ (chars "utilize", chars "use"), (chars "facilitate", chars "help"),
    (chars "endeavor", chars "try"), (chars "commence", chars "start"),
    (chars "terminate", chars "end"), (chars "good", chars "excellent"),
    (chars "nice", chars "pleasant"), (chars "big", chars "substantial"),
    (chars "small", chars "minimal") ]

/-- `isWordChoiceImprovement` of diffCalculator.js: split both texts on
whitespace and look for an index where the original word maps to exactly
the suggested word at the same index. -/
def isWordChoiceImprovement (o s : Str) : Bool :=
  let originalWords := splitWS o
  let suggestedWords := splitWS s
  originalWords.enum.any (fun iw =>
    match improvements.lookup iw.2 with
    | some better => decide (suggestedWords.getD iw.1 [] = better)
    | none => false)

/-- The three change-record kinds. -/
inductive CType | addition | deletion | modification
deriving DecidableEq, Repr

/-- A change record's `position` (the source field `end` is `stop` here). -/
structure Span where
  start : Nat
  stop : Nat
deriving DecidableEq, Repr

/-- A change record.  The source also carries `id: chg_<uuid>`, an opaque
fresh identifier, which is omitted here. -/
structure Change where
  type : CType
  position : Span
  original : Str
  suggested : Str
  reason : String
deriving DecidableEq, Repr

/-- `getReasonForChange` of diffCalculator.js.  (Its final
`return 'Improves content'` is reachable only for a `type` outside the three
kinds, which the embedding's `CType` cannot represent.) -/
def getReasonForChange (t : CType) (original suggested : Str) : String :=
  let originalLower := lowerS original
  let suggestedLower := lowerS suggested
  match t with
  | .addition =>
    if testAnyWordB [ "innovative", "exceptional", "comprehensive" ] suggestedLower then
      "Adds descriptive emphasis"
    else "Adds additional context"
  | .deletion =>
    if testAnyWordB [ "very", "really", "quite", "just" ] originalLower then
      "Removes unnecessary modifier"
    else "Simplifies phrasing"
  | .modification =>
    if isGrammarCorrection originalLower suggestedLower then
      getGrammarReason originalLower suggestedLower
    else if isWordChoiceImprovement originalLower suggestedLower then
      "Improves word choice"
    else if original.length * 2 > suggested.length * 3 then
      "Simplifies expression"
    else if suggested.length * 2 > original.length * 3 then
      "Adds more detail"
    else "Enhances clarity"

/-- The record-building walk of `calculateWordDiff` (lines 17–50): additions
anchor at the current original-string cursor without advancing it; deletions
span their text and advance the cursor; common parts only advance it. -/
def partsToChanges (pos : Nat) : List DPart → List Change
  | [] => []
  | .common v :: rest => partsToChanges (pos + v.length) rest
  | .removed v :: rest =>
    { type := .deletion, position := ⟨pos, pos + v.length⟩, original := v,
      suggested := [], reason := getReasonForChange .deletion v [] }
      :: partsToChanges (pos + v.length) rest
  | .added v :: rest =>
    { type := .addition, position := ⟨pos, pos⟩, original := [],
      suggested := v, reason := getReasonForChange .addition [] v }
      :: partsToChanges pos rest

/-- `mergeAdjacentChanges` of diffCalculator.js: a deletion directly followed
by an addition whose `position.start` equals the deletion's `position.start`
is collapsed into one modification. -/
def mergeAdjacentChanges : List Change → List Change
  | c1 :: c2 :: rest =>
    if c1.type = .deletion ∧ c2.type = .addition ∧
        c2.position.start = c1.position.start then
      { type := .modification, position := c1.position, original := c1.original,
        suggested := c2.suggested,
        reason := getReasonForChange .modification c1.original c2.suggested }
        :: mergeAdjacentChanges rest
    else c1 :: mergeAdjacentChanges (c2 :: rest)
  | l => l

/-- `calculateWordDiff` of diffCalculator.js (with the edit script supplied
by the spec-modelled `diffWordsM`). -/
def calculateWordDiff (a b : Str) : List Change :=
  mergeAdjacentChanges (partsToChanges 0 (diffWordsM a b))

/-! ## The reconciler (applyChangesToContent of EditorWithSuggestions.jsx) -/

/-- One splice of the fold body: JS `slice` clamps out-of-range indices,
exactly as `List.take`/`List.drop` do. -/
def spliceStep (s : Str) (c : Change) : Str :=
  match c.type with
  | .addition => s.take c.position.start ++ c.suggested ++ s.drop c.position.start
  | .deletion => s.take c.position.start ++ s.drop c.position.stop
  | .modification => s.take c.position.start ++ c.suggested ++ s.drop c.position.stop

/-- Stable insertion for a descending sort by `position.start`; ties keep
the earlier element first, as the ES2019+ stable `Array.prototype.sort`
does with the comparator `b.position.start - a.position.start`. -/
def insertDesc (c : Change) : List Change → List Change
  | [] => [c]
  | d :: ds =>
    if c.position.start ≤ d.position.start then d :: insertDesc c ds
    else c :: d :: ds

def sortByStartDesc (cs : List Change) : List Change :=
  cs.foldl (fun acc c => insertDesc c acc) []

/-- `applyChangesToContent` of EditorWithSuggestions.jsx: sort the accepted
records by descending start and splice each one into the string. -/
def applyChangesToContent (original : Str) (changes : List Change) : Str :=
  (sortByStartDesc changes).foldl spliceStep original

/-! ## The rule sets (suggestionRules.js)

Each JS rule body is a chain of `String.replace(regex, replacement)` calls on
literal-alternation patterns.  Each scanner below implements one such call:
left-to-right scan, non-overlapping matches, the replacement emitted verbatim
and scanning resumed after the matched text, exactly as `replace` with a
global regex behaves.  `prev` is the character preceding the scan position
(for `\b` and lookbehind tests); after a match it is the last matched
character — for case-insensitive matches the pattern's own character is used,
which has the same word-character class. -/

/-- `text.replace(/\b<pat>\b(?!<na>)/g[i], rep)` for a literal pattern.
(All scanners are fuelled so their recursion is structural and
kernel-computable; each consumes at least one input character per step, so
fuel `s.length`, supplied by the wrappers, always suffices and the fuel-out
branch is unreachable.) -/
def replRunF (ci : Bool) (pat rep : Str) (notAfter : Option Char) :
    Nat → Option Char → Str → Str
  | 0, _, s => s
  | _ + 1, _, [] => []
  | f + 1, prev, c :: cs =>
    if (if ci then startsWithCI pat (c :: cs) else startsWithS pat (c :: cs)) &&
        bndry prev pat.head? &&
        bndry pat.getLast? (((c :: cs).drop pat.length).head?) &&
        (match notAfter with
         | none => true
         | some ch => ((c :: cs).drop pat.length).head? != some ch) then
      rep ++ replRunF ci pat rep notAfter f pat.getLast? (cs.drop (pat.length - 1))
    else c :: replRunF ci pat rep notAfter f (some c) cs

def replRun (ci : Bool) (pat rep : Str) (notAfter : Option Char)
    (prev : Option Char) (s : Str) : Str :=
  replRunF ci pat rep notAfter s.length prev s

def replaceB (ci : Bool) (pat rep : String) (s : Str) : Str :=
  replRun ci (chars pat) (chars rep) none none s

def replaceBNA (ci : Bool) (pat rep : String) (na : Char) (s : Str) : Str :=
  replRun ci (chars pat) (chars rep) (some na) none s

def replaceBS (pat rep : Str) (s : Str) : Str := replRun true pat rep none none s

/-- `text.replace(/\b<w>\s+/gi, '')` — the remove-unnecessary-modifiers
shape: the word plus at least one following whitespace character (the
maximal run) is deleted. -/
def removeModRunF (w : Str) : Nat → Option Char → Str → Str
  | 0, _, s => s
  | _ + 1, _, [] => []
  | f + 1, prev, c :: cs =>
    let rest := cs.drop (w.length - 1)
    let sp := rest.takeWhile isSpaceChar
    if startsWithCI w (c :: cs) && bndry prev w.head? && !sp.isEmpty then
      removeModRunF w f (some ' ') (rest.drop sp.length)
    else c :: removeModRunF w f (some c) cs

def removeModRun (w : Str) (prev : Option Char) (s : Str) : Str :=
  removeModRunF w s.length prev s

/-- `text.replace(/\b(n1|n2|…) <vFrom>\b/gi, '$1 <vTo>')` — the
collective-noun agreement shape; the matched noun is kept verbatim
(the `$1` capture). -/
def collectiveRunF (nouns : List Str) (vFrom vTo : Str) :
    Nat → Option Char → Str → Str
  | 0, _, s => s
  | _ + 1, _, [] => []
  | f + 1, prev, c :: cs =>
    match nouns.find? (fun n =>
      let p := n ++ ' ' :: vFrom
      startsWithCI p (c :: cs) && bndry prev p.head? &&
        bndry p.getLast? (((c :: cs).drop p.length).head?)) with
    | some n =>
      ((c :: cs).take n.length) ++ ' ' :: vTo ++
        collectiveRunF nouns vFrom vTo f vFrom.getLast?
          (cs.drop ((n ++ ' ' :: vFrom).length - 1))
    | none => c :: collectiveRunF nouns vFrom vTo f (some c) cs

def collectiveRun (nouns : List Str) (vFrom vTo : Str) (prev : Option Char)
    (s : Str) : Str :=
  collectiveRunF nouns vFrom vTo s.length prev s

/-- `text.replace(/\btheyre\s+([\w]+)/gi, (m, next) => their next)`:
`theyre`, whitespace, and a word are matched; the whitespace collapses to
one space and the word is kept. -/
def theyreRunF : Nat → Option Char → Str → Str
  | 0, _, s => s
  | _ + 1, _, [] => []
  | f + 1, prev, c :: cs =>
    let afterT := cs.drop 5
    let sp := afterT.takeWhile isSpaceChar
    let afterSp := afterT.drop sp.length
    let wd := afterSp.takeWhile isWordChar
    if startsWithCI (chars "theyre") (c :: cs) && bndry prev (some 't') &&
        !sp.isEmpty && !wd.isEmpty then
      chars "their " ++ wd ++ theyreRunF f wd.getLast? (afterSp.drop wd.length)
    else c :: theyreRunF f (some c) cs

def theyreRun (prev : Option Char) (s : Str) : Str := theyreRunF s.length prev s

def isVowel (c : Char) : Bool :=
  let l := toLowerC c
  (l = 'a' || l = 'e' || l = 'i' || l = 'o' || l = 'u')

/-- `text.replace(/\bits\s+(?!a\b)/gi, "it's ")`.  The greedy `\s+`
backtracks by one space (when it holds two or more) if the lookahead fails
on the maximal run, because the shorter run is then followed by a space,
which satisfies `(?!a\b)`. -/
def itsRunF : Nat → Option Char → Str → Str
  | 0, _, s => s
  | _ + 1, _, [] => []
  | f + 1, prev, c :: cs =>
    let rest := cs.drop 2
    let n := (rest.takeWhile isSpaceChar).length
    if startsWithCI (chars "its") (c :: cs) && bndry prev (some 'i') && 0 < n then
      let lookFail : Bool :=
        match (rest.drop n).head? with
        | some d => toLowerC d = 'a' && !isWordO (rest.drop n).tail.head?
        | none => false
      if !lookFail then
        chars "it" ++ apos :: chars "s " ++ itsRunF f (some ' ') (rest.drop n)
      else if 2 ≤ n then
        chars "it" ++ apos :: chars "s " ++ itsRunF f (some ' ') (rest.drop (n - 1))
      else c :: itsRunF f (some c) cs
    else c :: itsRunF f (some c) cs

def itsRun (prev : Option Char) (s : Str) : Str := itsRunF s.length prev s

/-- `text.replace(/\ba\s+([aeiou])/gi, 'an $1')`: a lone `a`, whitespace
(collapsed to one space by the replacement) and a captured vowel. -/
def articleARunF : Nat → Option Char → Str → Str
  | 0, _, s => s
  | _ + 1, _, [] => []
  | f + 1, prev, c :: cs =>
    let n := (cs.takeWhile isSpaceChar).length
    let v := (cs.drop n).head?
    if toLowerC c = 'a' && bndry prev (some 'a') && 0 < n &&
        (match v with | some d => isVowel d | none => false) then
      chars "an " ++ (cs.drop n).take 1 ++ articleARunF f v (cs.drop (n + 1))
    else c :: articleARunF f (some c) cs

def articleARun (prev : Option Char) (s : Str) : Str := articleARunF s.length prev s

/-- `text.replace(/\ban\s+([^aeiou])/gi, 'a $1')`.  On the maximal
whitespace run the captured character is the following non-vowel; if that
character is a vowel (or the string ends) and the run holds two or more
spaces, `\s+` backtracks one space and the capture is a space. -/
def articleAnRunF : Nat → Option Char → Str → Str
  | 0, _, s => s
  | _ + 1, _, [] => []
  | f + 1, prev, c :: cs =>
    let rest := cs.drop 1
    let n := (rest.takeWhile isSpaceChar).length
    let after := (rest.drop n).head?
    if startsWithCI (chars "an") (c :: cs) && bndry prev (some 'a') && 0 < n then
      match after with
      | some d =>
        if !isVowel d then chars "a " ++ [d] ++ articleAnRunF f (some d) (rest.drop (n + 1))
        else if 2 ≤ n then chars "a " ++ [' '] ++ articleAnRunF f (some ' ') (rest.drop n)
        else c :: articleAnRunF f (some c) cs
      | none =>
        if 2 ≤ n then chars "a " ++ [' '] ++ articleAnRunF f (some ' ') (rest.drop n)
        else c :: articleAnRunF f (some c) cs
    else c :: articleAnRunF f (some c) cs

def articleAnRun (prev : Option Char) (s : Str) : Str := articleAnRunF s.length prev s

/-- `text.replace(/\s*,\s*<conj>\s+/gi, rep)` — the comma-splice shape. -/
def commaRunF (conj rep : Str) : Nat → Option Char → Str → Str
  | 0, _, s => s
  | _ + 1, _, [] => []
  | f + 1, _, c :: cs =>
    let k1 := ((c :: cs).takeWhile isSpaceChar).length
    if ((c :: cs).drop k1).head? = some ',' then
      let r1 := (c :: cs).drop (k1 + 1)
      let k2 := (r1.takeWhile isSpaceChar).length
      let r2 := r1.drop k2
      if startsWithCI conj r2 then
        let r3 := r2.drop conj.length
        let k3 := (r3.takeWhile isSpaceChar).length
        if 0 < k3 then rep ++ commaRunF conj rep f (some ' ') (r3.drop k3)
        else c :: commaRunF conj rep f (some c) cs
      else c :: commaRunF conj rep f (some c) cs
    else c :: commaRunF conj rep f (some c) cs

def commaRun (conj rep : Str) (prev : Option Char) (s : Str) : Str :=
  commaRunF conj rep s.length prev s

/-- `text.replace(/(?<!\w )\b<noun>\b/gi, rep)` — the professional-modifier
shape; `prev2` is the character two before the scan position, for the
negative lookbehind. -/
def lbRunF (noun rep : Str) : Nat → Option Char → Option Char → Str → Str
  | 0, _, _, s => s
  | _ + 1, _, _, [] => []
  | f + 1, prev2, prev, c :: cs =>
    if startsWithCI noun (c :: cs) && bndry prev noun.head? &&
        bndry noun.getLast? (((c :: cs).drop noun.length).head?) &&
        !(isWordO prev2 && prev = some ' ') then
      rep ++ lbRunF noun rep f noun.dropLast.getLast? noun.getLast?
        (cs.drop (noun.length - 1))
    else c :: lbRunF noun rep f prev (some c) cs

def lbRun (noun rep : Str) (prev2 prev : Option Char) (s : Str) : Str :=
  lbRunF noun rep s.length prev2 prev s

/-- `text.replace(/\b<pat>/i, rep)` — first occurrence only, no trailing
boundary, as the add-examples rule uses. -/
def replFirstRun (pat rep : Str) : Option Char → Str → Str
  | _, [] => []
  | prev, c :: cs =>
    if startsWithCI pat (c :: cs) && bndry prev pat.head? then
      rep ++ cs.drop (pat.length - 1)
    else c :: replFirstRun pat rep (some c) cs

/-- Regex `\b<pat>.test(s)` (no trailing boundary), case-insensitively. -/
def testWordStartB (pat : String) (s : Str) : Bool :=
  hasPatRun (lowerS (chars pat)) false none none (lowerS s)

/-- Regex `\b<pat>\b.test(s)` on arbitrary-case text, case-insensitively. -/
def testWordBCI (pat : String) (s : Str) : Bool :=
  hasPatRun (lowerS (chars pat)) true none none (lowerS s)

/-- The optional free-form `context` argument; the rules only ever read
`context.tone`. -/
structure RuleCtx where
  tone : Option String
deriving DecidableEq, Repr

/-- A rule of suggestionRules.js: optional condition plus transform. -/
structure Rule where
  name : String
  condition : Option (Str → RuleCtx → Bool)
  apply : Str → RuleCtx → Str

def dontHaveNo : Str := chars "don" ++ apos :: chars "t have no"
def dontHaveAny : Str := chars "don" ++ apos :: chars "t have any"
def cantHardly : Str := chars "can" ++ apos :: chars "t hardly"
def wontNever : Str := chars "won" ++ apos :: chars "t never"

/-- `improvementRules` of suggestionRules.js. -/
def improvementRules : List Rule :=
  [ { name := "Enhance weak adjectives", condition := none,
      apply := fun text _ =>
        [ ( "good", "excellent"), ( "nice", "exceptional"), ( "big", "substantial"),
          ( "small", "minimal"), ( "fast", "lightning-fast"), ( "slow", "deliberate"),
          ( "bad", "suboptimal"), ( "very good", "outstanding"),
          ( "pretty good", "impressive") ].foldl
          (fun t p => replaceB true p.1 p.2 t) text },
    { name := "Replace basic with comprehensive", condition := none,
      apply := fun text _ => replaceB true "basic" "comprehensive" text },
    { name := "Add professional modifiers",
      condition := some (fun _ ctx => ctx.tone = some "professional"),
      apply := fun text _ =>
        [ ( "solution", "innovative solution"), ( "product", "cutting-edge product"),
          ( "service", "premium service"), ( "approach", "strategic approach") ].foldl
          (fun t p => lbRun (chars p.1) (chars p.2) none none t) text },
    { name := "Expand abbreviated forms", condition := none,
      apply := fun text _ =>
        replaceB true "pic" "picture"
          (replaceB true "info" "information" (replaceB true "app" "application" text)) } ]

/-- `grammarRules` of suggestionRules.js. -/
def grammarRules : List Rule :=
  [ { name := "Subject-verb agreement (collective nouns)", condition := none,
      apply := fun text _ =>
        let nouns := [chars "team", chars "group", chars "committee", chars "company"]
        collectiveRun nouns (chars "were") (chars "was") none
          (collectiveRun nouns (chars "are") (chars "is") none text) },
    { name := "Possessive vs contraction", condition := none,
      apply := fun text _ => itsRun none (theyreRun none text) },
    { name := "Past participle corrections", condition := none,
      apply := fun text _ =>
        replaceB true "has came" "has come"
          (replaceB true "has ran" "has run"
            (replaceB true "has did" "has done"
              (replaceB true "has went" "has gone" text))) },
    { name := "Article usage", condition := none,
      apply := fun text _ => articleAnRun none (articleARun none text) },
    { name := "Double negatives", condition := none,
      apply := fun text _ =>
        replaceBS wontNever (chars "will never")
          (replaceBS cantHardly (chars "can hardly")
            (replaceBS dontHaveNo dontHaveAny text)) },
    { name := "Comma splice fixes", condition := none,
      apply := fun text _ =>
        commaRun (chars "but") (chars ", but ") none
          (commaRun (chars "and") (chars ", and ") none text) } ]

/-- `simplificationRules` of suggestionRules.js. -/
def simplificationRules : List Rule :=
  [ { name := "Replace complex words", condition := none,
      apply := fun text _ =>
        [ ( "utilize", "use"), ( "facilitate", "help"), ( "endeavor", "try"),
          ( "commence", "start"), ( "terminate", "end"), ( "demonstrate", "show"),
          ( "sufficient", "enough"), ( "subsequently", "later"), ( "prior to", "before"),
          ( "in order to", "to"), ( "due to the fact that", "because"),
          ( "at this point in time", "now"), ( "in the event that", "if"),
          ( "with regard to", "about"), ( "methodology", "method"),
          ( "implement", "do"), ( "optimization", "improvement"),
          ( "state-of-the-art", "modern"), ( "cutting-edge", "advanced"),
          ( "revolutionary", "new") ].foldl
          (fun t p => replaceB true p.1 p.2 t) text },
    { name := "Remove unnecessary modifiers", condition := none,
      apply := fun text _ =>
        [ "very", "really", "quite", "just", "actually", "basically" ].foldl
          (fun t w => removeModRun (chars w) none t) text },
    { name := "Simplify compound words", condition := none,
      apply := fun text _ =>
        replaceB true "by means of" "by"
          (replaceB true "in spite of the fact that" "although"
            (replaceB true "for the purpose of" "to"
              (replaceB true "in accordance with" "following" text))) } ]

/-- `expansionRules` of suggestionRules.js. -/
def expansionRules : List Rule :=
  [ { name := "Add descriptive details", condition := none,
      apply := fun text _ =>
        [ ( "fast", "fast, with response times under 100ms"),
          ( "easy", "easy to use, with an intuitive interface"),
          ( "powerful", "powerful, capable of handling complex workflows"),
          ( "reliable", "reliable, with 99.9% uptime"),
          ( "secure", "secure, using industry-standard encryption"),
          ( "efficient", "efficient, optimizing resource usage") ].foldl
          (fun t p => replaceBNA true p.1 p.2 ',' t) text },
    { name := "Expand abbreviations with context", condition := none,
      apply := fun text _ =>
        replaceB false "CTA" "CTA (Call To Action)"
          (replaceB false "UX" "UX (User Experience)"
            (replaceB false "UI" "UI (User Interface)"
              (replaceB false "API" "API (Application Programming Interface)" text))) },
    { name := "Add examples",
      condition := some (fun text _ => text.length < 200),
      apply := fun text _ =>
        if testWordStartB "feature" text && !testWordBCI "such as" text then
          replFirstRun (chars "feature")
            (chars "feature, such as real-time collaboration") none text
        else if testWordStartB "benefit" text && !testWordBCI "including" text then
          replFirstRun (chars "benefit")
            (chars "benefit, including increased productivity") none text
        else text },
    { name := "Add quantitative details", condition := none,
      apply := fun text _ =>
        replaceB true "large database" "database with millions of records"
          (replaceB true "quick response" "response in under 2 seconds"
            (replaceB true "many users" "over 10,000 users" text)) } ]

/-! ## The suggestion service (suggestionService.js) -/

/-- `applyRules` of suggestionService.js. -/
def applyRules (content : Str) (rules : List Rule) (context : RuleCtx) : Str :=
  rules.foldl (fun result rule =>
    match rule.condition with
    | some cond => if cond result context then rule.apply result context else result
    | none => rule.apply result context) content

/-- `selectRules` of suggestionService.js; `none` models its
`throw new Error('Unknown suggestion type: …')` default branch. -/
def selectRules (type : String) : Option (List Rule) :=
  if type = "improve" then some improvementRules
  else if type = "grammar" then some grammarRules
  else if type = "simplify" then some simplificationRules
  else if type = "expand" then some expansionRules
  else none

/-- `getModelName` of suggestionService.js. -/
def getModelName (type : String) : String :=
  if type = "improve" then "improvement-v1"
  else if type = "grammar" then "grammar-check-v1"
  else if type = "simplify" then "simplification-v1"
  else if type = "expand" then "expansion-v1"
  else "unknown"

/-- JS `Math.round`: round half toward positive infinity. -/
def jsRound (q : ℚ) : ℤ := ⌊q + 1 / 2⌋

/-- `Math.round(q * 100) / 100` — rounding to two decimal places. -/
def jsRound2 (q : ℚ) : ℚ := (jsRound (q * 100) : ℚ) / 100

/-- `calculateConfidence` of suggestionService.js.  The decimal constants
and their sums are modelled exactly as rationals; at these magnitudes the
JS double arithmetic rounds to the same two-decimal results. -/
def calculateConfidence (changes : List Change) : ℚ :=
  if changes = [] then 1
  else
    let baseConfidence : ℚ := 95 / 100
    let changesPenalty : ℚ := (changes.length : ℚ) * (2 / 100)
    let sizePenalty : ℚ := changes.foldl
      (fun sum c =>
        sum + (if 20 < max c.original.length c.suggested.length then (1 : ℚ) / 100 else 0)) 0
    jsRound2 (max (1 / 2) (baseConfidence - changesPenalty - sizePenalty))

/-- The error object `generateSuggestions` throws, with `details.reason`
flattened into `reason`. -/
structure ApiError where
  status : Nat
  code : String
  message : String
  reason : String
deriving DecidableEq, Repr

/-- A suggestion.  The source also carries `id: sug_<uuid>` and
`metadata.timestamp`, both impure and opaque, which are omitted;
`metadata.model` and `metadata.confidence` are kept. -/
structure Suggestion where
  original : Str
  suggested : Str
  changes : List Change
  model : String
  confidence : ℚ
deriving DecidableEq, Repr

/-- `generateSuggestions` of suggestionService.js.  Its `try/catch` wraps
every thrown error into the `GENERATION_FAILED` object; the only throw site
on this path is `selectRules` (all other steps are total), so the catch is
modelled by the `none` branch. -/
def generateSuggestions (content : Str) (type : String) (context : RuleCtx) :
    Except ApiError Suggestion :=
  match selectRules type with
  | none =>
    .error { status := 500, code := "GENERATION_FAILED",
             message := "Failed to generate suggestions",
             reason := "Unknown suggestion type: " ++ type }
  | some rules =>
    let suggested := applyRules content rules context
    let changes := calculateWordDiff content suggested
    .ok { original := content, suggested := suggested, changes := changes,
          model := getModelName type, confidence := calculateConfidence changes }

/-! ## Projections of scripts and parts onto the two strings -/

/-- The original-string text of an edit script (common and deleted runs). -/
def stepsOld : List Step → Str
  | [] => []
  | .common v :: r => v ++ stepsOld r
  | .del v :: r => v ++ stepsOld r
  | .ins _ :: r => stepsOld r

/-- The transformed-string text of an edit script (common and inserted runs). -/
def stepsNew : List Step → Str
  | [] => []
  | .common v :: r => v ++ stepsNew r
  | .del _ :: r => stepsNew r
  | .ins v :: r => v ++ stepsNew r

/-- The original-string text of collapsed parts. -/
def partsOld : List DPart → Str
  | [] => []
  | .common v :: r => v ++ partsOld r
  | .removed v :: r => v ++ partsOld r
  | .added _ :: r => partsOld r

/-- The transformed-string text of collapsed parts. -/
def partsNew : List DPart → Str
  | [] => []
  | .common v :: r => v ++ partsNew r
  | .removed _ :: r => partsNew r
  | .added v :: r => v ++ partsNew r

theorem stepsOld_append (l₁ l₂ : List Step) :
    stepsOld (l₁ ++ l₂) = stepsOld l₁ ++ stepsOld l₂ := by
  induction l₁ with
  | nil => simp [stepsOld]
  | cons st r ih => cases st <;> simp [stepsOld, ih]

theorem stepsNew_append (l₁ l₂ : List Step) :
    stepsNew (l₁ ++ l₂) = stepsNew l₁ ++ stepsNew l₂ := by
  induction l₁ with
  | nil => simp [stepsNew]
  | cons st r ih => cases st <;> simp [stepsNew, ih]

theorem stepsOld_mapDel (xs : List Str) : stepsOld (xs.map .del) = xs.flatten := by
  induction xs with
  | nil => simp [stepsOld]
  | cons x r ih => simp [stepsOld, ih]

theorem stepsOld_mapIns (ys : List Str) : stepsOld (ys.map .ins) = [] := by
  induction ys with
  | nil => simp [stepsOld]
  | cons y r ih => simp [stepsOld, ih]

theorem stepsNew_mapIns (ys : List Str) : stepsNew (ys.map .ins) = ys.flatten := by
  induction ys with
  | nil => simp [stepsNew]
  | cons y r ih => simp [stepsNew, ih]

theorem stepsNew_mapDel (xs : List Str) : stepsNew (xs.map .del) = [] := by
  induction xs with
  | nil => simp [stepsNew]
  | cons x r ih => simp [stepsNew, ih]

/-- Whatever choices the alignment makes, the deleted and common runs of the
edit script spell the original token sequence. -/
theorem diffTF_old (f : Nat) (xs ys : List Str) :
    stepsOld (diffTF f xs ys) = xs.flatten := by
  induction f generalizing xs ys with
  | zero => simp [diffTF, stepsOld_append, stepsOld_mapDel, stepsOld_mapIns]
  | succ f ih =>
    match xs, ys with
    | [], ys => simp [diffTF, stepsOld_mapIns]
    | x :: xs, [] =>
      show stepsOld ((x :: xs).map .del) = (x :: xs).flatten
      rw [stepsOld_mapDel]
    | x :: xs, y :: ys =>
      simp only [diffTF]
      by_cases hxy : x = y
      · simp [hxy, stepsOld, ih]
      · by_cases hc : lcsLen (x :: xs) ys ≤ lcsLen xs (y :: ys) <;>
          simp [hxy, hc, stepsOld, ih]

/-- The inserted and common runs of the edit script spell the transformed
token sequence. -/
theorem diffTF_new (f : Nat) (xs ys : List Str) :
    stepsNew (diffTF f xs ys) = ys.flatten := by
  induction f generalizing xs ys with
  | zero => simp [diffTF, stepsNew_append, stepsNew_mapDel, stepsNew_mapIns]
  | succ f ih =>
    match xs, ys with
    | [], ys => simp [diffTF, stepsNew_mapIns]
    | x :: xs, [] =>
      show stepsNew ((x :: xs).map .del) = []
      rw [stepsNew_mapDel]
    | x :: xs, y :: ys =>
      simp only [diffTF]
      by_cases hxy : x = y
      · simp [hxy, stepsNew, ih]
      · by_cases hc : lcsLen (x :: xs) ys ≤ lcsLen xs (y :: ys) <;>
          simp [hxy, hc, stepsNew, ih]

theorem pushDel_old (v : Str) (ps : List DPart) :
    partsOld (pushDel v ps) = v ++ partsOld ps := by
  match ps with
  | [] => simp [pushDel, partsOld]
  | .removed w :: r => simp [pushDel, partsOld]
  | .common w :: r => simp [pushDel, partsOld]
  | .added w :: r => simp [pushDel, partsOld]

theorem pushDel_new (v : Str) (ps : List DPart) :
    partsNew (pushDel v ps) = partsNew ps := by
  match ps with
  | [] => simp [pushDel, partsNew]
  | .removed w :: r => simp [pushDel, partsNew]
  | .common w :: r => simp [pushDel, partsNew]
  | .added w :: r => simp [pushDel, partsNew]

theorem pushIns_old (v : Str) (ps : List DPart) :
    partsOld (pushIns v ps) = partsOld ps := by
  induction ps with
  | nil => simp [pushIns, partsOld]
  | cons p r ih =>
    cases p with
    | removed w => simp [pushIns, partsOld, ih]
    | added w => simp [pushIns, partsOld]
    | common w => simp [pushIns, partsOld]

theorem pushIns_new (v : Str) (ps : List DPart) :
    partsNew (pushIns v ps) = v ++ partsNew ps := by
  induction ps with
  | nil => simp [pushIns, partsNew]
  | cons p r ih =>
    cases p with
    | removed w => simp [pushIns, partsNew, ih]
    | added w => simp [pushIns, partsNew]
    | common w => simp [pushIns, partsNew]

theorem collapse_old (l : List Step) : partsOld (collapse l) = stepsOld l := by
  induction l with
  | nil => simp [collapse, partsOld, stepsOld]
  | cons st r ih =>
    cases st with
    | common v => simp [collapse, partsOld, stepsOld, ih]
    | del v => simp [collapse, pushDel_old, stepsOld, ih]
    | ins v => simp [collapse, pushIns_old, stepsOld, ih]

theorem collapse_new (l : List Step) : partsNew (collapse l) = stepsNew l := by
  induction l with
  | nil => simp [collapse, partsNew, stepsNew]
  | cons st r ih =>
    cases st with
    | common v => simp [collapse, partsNew, stepsNew, ih]
    | del v => simp [collapse, pushDel_new, stepsNew, ih]
    | ins v => simp [collapse, pushIns_new, stepsNew, ih]

/-- The tokenizer partitions the string: the token texts joined give the
string back (spec §3: no gaps, no overlaps, nothing discarded). -/
theorem tokenizeF_join (f : Nat) : ∀ (pos : Nat) (s : Str), s.length ≤ f →
    ((tokenizeF f pos s).map Token.value).flatten = s := by
  induction f with
  | zero =>
    intro pos s hf
    have : s = [] := List.length_eq_zero.mp (Nat.le_zero.mp hf)
    subst this
    rfl
  | succ f ih =>
    intro pos s hf
    cases s with
    | nil => rfl
    | cons c cs =>
      have hrest : (cs.dropWhile (fun d => charClass d = charClass c)).length ≤ f := by
        have h1 := dropWhile_length_le (fun d => decide (charClass d = charClass c)) cs
        simp only [List.length_cons] at hf
        omega
      simp only [tokenizeF, List.map_cons, List.flatten_cons]
      rw [ih _ _ hrest, List.cons_append, List.takeWhile_append_dropWhile]

theorem tokenVals_join (s : Str) : (tokenVals s).flatten = s :=
  tokenizeF_join s.length 0 s (le_refl _)

/-- The two projections of the modelled diff give back the two strings. -/
theorem diffWordsM_old (a b : Str) : partsOld (diffWordsM a b) = a := by
  rw [diffWordsM, collapse_old, diffTF_old, tokenVals_join]

theorem diffWordsM_new (a b : Str) : partsNew (diffWordsM a b) = b := by
  rw [diffWordsM, collapse_new, diffTF_new, tokenVals_join]

/-! ## Canonical shape of the collapsed parts

Between two common runs a gap holds at most one removed and one added part,
removed first: after an added part only a common part (or the end) may
follow, and a removed part is never followed by another removed part. -/

inductive PKind | commonK | removedK | addedK
deriving DecidableEq

def pkind : DPart → PKind
  | .common _ => .commonK
  | .removed _ => .removedK
  | .added _ => .addedK

def canFollowK : PKind → PKind → Prop
  | .addedK, .commonK => True
  | .addedK, _ => False
  | .removedK, .removedK => False
  | _, _ => True

def canFollow (p q : DPart) : Prop := canFollowK (pkind p) (pkind q)

/-- The canonical-alternation invariant of collapsed part lists. -/
def Canon (ps : List DPart) : Prop := List.Chain' canFollow ps

/-- All part values are nonempty. -/
def NEV (ps : List DPart) : Prop := ∀ p ∈ ps, p.val ≠ []

theorem cf_common_left (v : Str) (q : DPart) : canFollow (.common v) q := by
  cases q <;> trivial

theorem cf_rem_add (v w : Str) : canFollow (.removed v) (.added w) := trivial

theorem cf_rem_common (v w : Str) : canFollow (.removed v) (.common w) := trivial

theorem cf_add_common (v w : Str) : canFollow (.added v) (.common w) := trivial

theorem canon_pushDel (v : Str) (ps : List DPart) (h : Canon ps) :
    Canon (pushDel v ps) := by
  match ps with
  | [] => exact List.chain'_singleton _
  | .removed w :: r =>
    have h' := List.chain'_cons'.mp h
    exact List.chain'_cons'.mpr ⟨h'.1, h'.2⟩
  | .common w :: r =>
    refine List.chain'_cons'.mpr ⟨fun y hy => ?_, h⟩
    simp only [List.head?] at hy
    cases hy
    exact cf_rem_common _ _
  | .added w :: r =>
    refine List.chain'_cons'.mpr ⟨fun y hy => ?_, h⟩
    simp only [List.head?] at hy
    cases hy
    exact cf_rem_add _ _

theorem canon_pushIns (v : Str) (ps : List DPart) (h : Canon ps) :
    Canon (pushIns v ps) := by
  induction ps with
  | nil => exact List.chain'_singleton _
  | cons p r ih =>
    have h' := List.chain'_cons'.mp h
    cases p with
    | common w =>
      refine List.chain'_cons'.mpr ⟨fun y hy => ?_, h⟩
      simp only [List.head?] at hy
      cases hy
      exact cf_add_common _ _
    | added w => exact List.chain'_cons'.mpr ⟨h'.1, h'.2⟩
    | removed w =>
      show List.Chain' canFollow (.removed w :: pushIns v r)
      refine List.chain'_cons'.mpr ⟨?_, ih h'.2⟩
      intro y hy
      cases r with
      | nil =>
        simp only [pushIns, List.head?] at hy
        cases hy
        exact cf_rem_add _ _
      | cons q r2 =>
        have hq : canFollow (DPart.removed w) q := h'.1 q (by simp)
        cases q with
        | removed u => exact hq.elim
        | added u =>
          simp only [pushIns, List.head?] at hy
          cases hy
          exact cf_rem_add _ _
        | common u =>
          simp only [pushIns, List.head?] at hy
          cases hy
          exact cf_rem_add _ _

theorem canon_collapse (l : List Step) : Canon (collapse l) := by
  induction l with
  | nil => exact List.chain'_nil
  | cons st r ih =>
    cases st with
    | common v =>
      exact List.chain'_cons'.mpr ⟨fun y _ => cf_common_left v y, ih⟩
    | del v => exact canon_pushDel v _ ih
    | ins v => exact canon_pushIns v _ ih

def Step.val : Step → Str
  | .common v => v
  | .del v => v
  | .ins v => v

theorem nev_pushDel (v : Str) (ps : List DPart) (hv : v ≠ []) (h : NEV ps) :
    NEV (pushDel v ps) := by
  match ps with
  | [] => intro p hp; simp only [pushDel] at hp; simp_all [DPart.val]
  | .removed w :: r =>
    intro p hp
    simp only [pushDel, List.mem_cons] at hp
    rcases hp with h1 | h2
    · subst h1; simp [DPart.val, hv]
    · exact h p (List.mem_cons_of_mem _ h2)
  | .common w :: r =>
    intro p hp
    simp only [pushDel, List.mem_cons] at hp
    rcases hp with h1 | h2
    · subst h1; simpa [DPart.val] using hv
    · exact h p (List.mem_cons.mpr h2)
  | .added w :: r =>
    intro p hp
    simp only [pushDel, List.mem_cons] at hp
    rcases hp with h1 | h2
    · subst h1; simpa [DPart.val] using hv
    · exact h p (List.mem_cons.mpr h2)

theorem nev_pushIns (v : Str) (ps : List DPart) (hv : v ≠ []) (h : NEV ps) :
    NEV (pushIns v ps) := by
  induction ps with
  | nil => intro p hp; simp only [pushIns] at hp; simp_all [DPart.val]
  | cons q r ih =>
    have h' : NEV r := fun p hp => h p (List.mem_cons_of_mem _ hp)
    cases q with
    | removed w =>
      intro p hp
      simp only [pushIns, List.mem_cons] at hp
      rcases hp with h1 | h2
      · subst h1; exact h _ (by simp)
      · exact ih h' p h2
    | added w =>
      intro p hp
      simp only [pushIns, List.mem_cons] at hp
      rcases hp with h1 | h2
      · subst h1
        have : w ≠ [] := by simpa [DPart.val] using h (DPart.added w) (by simp)
        simp [DPart.val, hv]
      · exact h p (List.mem_cons_of_mem _ h2)
    | common w =>
      intro p hp
      simp only [pushIns, List.mem_cons] at hp
      rcases hp with h1 | h2
      · subst h1; simpa [DPart.val] using hv
      · exact h p (List.mem_cons.mpr h2)

theorem nev_collapse (l : List Step) (h : ∀ st ∈ l, st.val ≠ []) :
    NEV (collapse l) := by
  induction l with
  | nil => intro p hp; simp [collapse] at hp
  | cons st r ih =>
    have h' : ∀ s ∈ r, Step.val s ≠ [] := fun s hs => h s (List.mem_cons_of_mem _ hs)
    cases st with
    | common v =>
      intro p hp
      simp only [collapse, List.mem_cons] at hp
      rcases hp with h1 | h2
      · subst h1; simpa [DPart.val] using h (Step.common v) (by simp [Step.val])
      · exact ih h' p h2
    | del v =>
      exact nev_pushDel v _ (by simpa [Step.val] using h (Step.del v) (by simp)) (ih h')
    | ins v =>
      exact nev_pushIns v _ (by simpa [Step.val] using h (Step.ins v) (by simp)) (ih h')

theorem diffTF_vals (f : Nat) (xs ys : List Str)
    (hx : ∀ v ∈ xs, v ≠ []) (hy : ∀ v ∈ ys, v ≠ []) :
    ∀ st ∈ diffTF f xs ys, st.val ≠ [] := by
  induction f generalizing xs ys with
  | zero =>
    intro st hst
    simp only [diffTF, List.mem_append, List.mem_map] at hst
    rcases hst with ⟨v, hv, rfl⟩ | ⟨v, hv, rfl⟩
    · simpa [Step.val] using hx v hv
    · simpa [Step.val] using hy v hv
  | succ f ih =>
    intro st hst
    cases xs with
    | nil =>
      simp only [diffTF, List.mem_map] at hst
      obtain ⟨v, hv, rfl⟩ := hst
      simpa [Step.val] using hy v hv
    | cons x xs =>
    cases ys with
    | nil =>
      simp only [diffTF, List.mem_map] at hst
      obtain ⟨v, hv, rfl⟩ := hst
      simpa [Step.val] using hx v hv
    | cons y ys =>
      have hx' : ∀ v ∈ xs, v ≠ [] := fun v hv => hx v (List.mem_cons_of_mem _ hv)
      have hy' : ∀ v ∈ ys, v ≠ [] := fun v hv => hy v (List.mem_cons_of_mem _ hv)
      simp only [diffTF] at hst
      by_cases hxy : x = y
      · simp only [hxy, if_pos rfl] at hst
        cases hst with
        | head => simpa [Step.val] using hy y (by simp)
        | tail _ h2 => exact ih xs ys hx' hy' st h2
      · simp only [if_neg hxy] at hst
        by_cases hc : lcsLen (x :: xs) ys ≤ lcsLen xs (y :: ys)
        · simp only [if_pos hc] at hst
          cases hst with
          | head => simpa [Step.val] using hx x (by simp)
          | tail _ h2 => exact ih xs (y :: ys) hx' hy st h2
        · simp only [if_neg hc] at hst
          cases hst with
          | head => simpa [Step.val] using hy y (by simp)
          | tail _ h2 => exact ih (x :: xs) ys hx hy' st h2

theorem tokenizeF_vals (f : Nat) : ∀ (pos : Nat) (s : Str),
    ∀ t ∈ tokenizeF f pos s, t.value ≠ [] := by
  induction f with
  | zero => intro pos s t ht; simp [tokenizeF] at ht
  | succ f ih =>
    intro pos s t ht
    cases s with
    | nil => simp [tokenizeF] at ht
    | cons c cs =>
      simp only [tokenizeF] at ht
      cases ht with
      | head => simp
      | tail _ h2 => exact ih _ _ t h2

theorem tokenVals_ne (s : Str) : ∀ v ∈ tokenVals s, v ≠ [] := by
  intro v hv
  simp only [tokenVals, tokenize, List.mem_map] at hv
  obtain ⟨t, ht, rfl⟩ := hv
  exact tokenizeF_vals s.length 0 s t ht

theorem diffWordsM_canon (a b : Str) : Canon (diffWordsM a b) :=
  canon_collapse _

theorem diffWordsM_nev (a b : Str) : NEV (diffWordsM a b) :=
  nev_collapse _ (diffTF_vals _ _ _ (tokenVals_ne a) (tokenVals_ne b))

/-! ## Position invariants of the generated change records -/

/-- Sortedness-plus-disjointness of two records: the second starts strictly
after the first starts and no earlier than the first ends. -/
def recOrder (c d : Change) : Prop :=
  c.position.start < d.position.start ∧ c.position.stop ≤ d.position.start

/-- Every record of `partsToChanges pos parts` starts at or after `pos`. -/
theorem ptc_lb (parts : List DPart) : ∀ (pos : Nat) (c : Change),
    c ∈ partsToChanges pos parts → pos ≤ c.position.start := by
  induction parts with
  | nil => intro pos c hc; simp [partsToChanges] at hc
  | cons p rest ih =>
    intro pos c hc
    cases p with
    | common v =>
      simp only [partsToChanges] at hc
      exact le_trans (Nat.le_add_right _ _) (ih _ c hc)
    | removed v =>
      simp only [partsToChanges] at hc
      cases hc with
      | head => exact le_refl _
      | tail _ h2 => exact le_trans (Nat.le_add_right _ _) (ih _ c h2)
    | added v =>
      simp only [partsToChanges] at hc
      cases hc with
      | head => exact le_refl _
      | tail _ h2 => exact ih _ c h2

/-- Every record of `partsToChanges pos parts` ends within
`pos + |partsOld parts|` — within the original string. -/
theorem ptc_ub (parts : List DPart) : ∀ (pos : Nat) (c : Change),
    c ∈ partsToChanges pos parts →
    c.position.stop ≤ pos + (partsOld parts).length := by
  induction parts with
  | nil => intro pos c hc; simp [partsToChanges] at hc
  | cons p rest ih =>
    intro pos c hc
    cases p with
    | common v =>
      simp only [partsToChanges] at hc
      have := ih _ c hc
      simp only [partsOld, List.length_append]
      omega
    | removed v =>
      simp only [partsToChanges] at hc
      simp only [partsOld, List.length_append]
      cases hc with
      | head => simp
      | tail _ h2 => have := ih _ c h2; omega
    | added v =>
      simp only [partsToChanges] at hc
      simp only [partsOld]
      cases hc with
      | head =>
        show pos ≤ pos + (partsOld rest).length
        omega
      | tail _ h2 => exact ih _ c h2

/-- Per-record field invariants of the walk (spec §3): additions are pure
insertion points with empty original text; deletions span exactly their
original text and have empty suggested text; the walk emits no
modifications. -/
theorem ptc_shape (parts : List DPart) : ∀ (pos : Nat) (c : Change),
    c ∈ partsToChanges pos parts →
    c.position.start ≤ c.position.stop ∧
    (c.type = .addition → c.original = [] ∧ c.position.start = c.position.stop) ∧
    (c.type = .deletion →
      c.suggested = [] ∧ c.position.stop - c.position.start = c.original.length) ∧
    c.type ≠ .modification := by
  induction parts with
  | nil => intro pos c hc; simp [partsToChanges] at hc
  | cons p rest ih =>
    intro pos c hc
    cases p with
    | common v =>
      simp only [partsToChanges] at hc
      exact ih _ c hc
    | removed v =>
      simp only [partsToChanges] at hc
      cases hc with
      | head => refine ⟨by simp, by simp, by simp, by simp⟩
      | tail _ h2 => exact ih _ c h2
    | added v =>
      simp only [partsToChanges] at hc
      cases hc with
      | head => refine ⟨by simp, by simp, by simp, by simp⟩
      | tail _ h2 => exact ih _ c h2

/-- On canonical parts with nonempty values, the records come out in
strictly increasing, pairwise disjoint order. -/
theorem ptc_chain (parts : List DPart) : ∀ (pos : Nat),
    Canon parts → NEV parts →
    List.Chain' recOrder (partsToChanges pos parts) := by
  induction parts with
  | nil => intro pos _ _; simp [partsToChanges]
  | cons p rest ih =>
    intro pos hcanon hnev
    have hc' : Canon rest := (List.chain'_cons'.mp hcanon).2
    have hn' : NEV rest := fun q hq => hnev q (List.mem_cons_of_mem _ hq)
    cases p with
    | common v =>
      simpa [partsToChanges] using ih (pos + v.length) hc' hn'
    | removed v =>
      simp only [partsToChanges]
      refine List.chain'_cons'.mpr ⟨?_, ih (pos + v.length) hc' hn'⟩
      intro y hy
      have hy' : y ∈ partsToChanges (pos + v.length) rest := List.mem_of_mem_head? hy
      have h1 : pos + v.length ≤ y.position.start := ptc_lb rest _ y hy'
      have hv : v ≠ [] := by
        simpa [DPart.val] using hnev (DPart.removed v) (by simp)
      have hv' : 0 < v.length := List.length_pos.mpr hv
      exact ⟨by simp; omega, by simp; omega⟩
    | added v =>
      simp only [partsToChanges]
      refine List.chain'_cons'.mpr ⟨?_, ih pos hc' hn'⟩
      intro y hy
      cases rest with
      | nil => simp [partsToChanges] at hy
      | cons q r2 =>
        have hfol : canFollow (DPart.added v) q := (List.chain'_cons'.mp hcanon).1 q (by simp)
        cases q with
        | removed u => exact hfol.elim
        | added u => exact hfol.elim
        | common u =>
          have hy' : y ∈ partsToChanges (pos + u.length) r2 := by
            simpa [partsToChanges] using List.mem_of_mem_head? hy
          have h1 : pos + u.length ≤ y.position.start := ptc_lb r2 _ y hy'
          have hu : u ≠ [] := by
            simpa [DPart.val] using hn' (DPart.common u) (by simp)
          have hu' : 0 < u.length := List.length_pos.mpr hu
          exact ⟨by simp; omega, by simp; omega⟩

/-- The merge pass leaves any strictly-ascending record list unchanged:
its condition compares the addition's start to the deletion's start, and on
ascending lists consecutive starts are never equal. -/
theorem merge_noop (cs : List Change)
    (h : List.Chain' (fun c d => c.position.start < d.position.start) cs) :
    mergeAdjacentChanges cs = cs := by
  induction cs with
  | nil => rfl
  | cons c1 tl ih =>
    cases tl with
    | nil => rfl
    | cons c2 rest =>
      have hlt : c1.position.start < c2.position.start := (List.chain'_cons.mp h).1
      rw [mergeAdjacentChanges, if_neg (by rintro ⟨_, _, heq⟩; omega)]
      rw [ih (List.chain'_cons.mp h).2]

theorem insertDesc_of_lt (c : Change) (acc : List Change)
    (h : ∀ x ∈ acc, x.position.start < c.position.start) :
    insertDesc c acc = c :: acc := by
  cases acc with
  | nil => rfl
  | cons d ds =>
    have := h d (by simp)
    rw [insertDesc, if_neg (by omega)]

theorem foldl_insertDesc (cs : List Change) : ∀ (acc : List Change),
    List.Pairwise (fun c d => c.position.start < d.position.start) cs →
    (∀ x ∈ acc, ∀ c ∈ cs, x.position.start < c.position.start) →
    cs.foldl (fun a c => insertDesc c a) acc = cs.reverse ++ acc := by
  induction cs with
  | nil => intro acc _ _; simp
  | cons c cs' ih =>
    intro acc hp hacc
    simp only [List.foldl_cons]
    rw [insertDesc_of_lt c acc (fun x hx => hacc x hx c (by simp))]
    rw [ih (c :: acc) (List.pairwise_cons.mp hp).2 ?_]
    · simp
    · intro x hx d hd
      cases hx with
      | head => exact (List.pairwise_cons.mp hp).1 d hd
      | tail _ h2 => exact hacc x h2 d (List.mem_cons_of_mem _ hd)

/-- On a strictly-ascending list the descending stable sort is exactly list
reversal. -/
theorem sortDesc_eq_reverse (cs : List Change)
    (h : List.Pairwise (fun c d => c.position.start < d.position.start) cs) :
    sortByStartDesc cs = cs.reverse := by
  have := foldl_insertDesc cs [] h (by simp)
  simpa [sortByStartDesc] using this

/-! ## The round-trip -/

/-- Splicing the records of a part list into the original text, from the
last record to the first (`foldr` applies the head record last, which is the
descending-start order), rebuilds the transformed text.  `pre` is the
already-reconciled prefix of length equal to the walk's cursor. -/
theorem splice_foldr (parts : List DPart) : ∀ (pre : Str),
    (partsToChanges pre.length parts).foldr (fun c acc => spliceStep acc c)
      (pre ++ partsOld parts) = pre ++ partsNew parts := by
  induction parts with
  | nil => intro pre; simp [partsToChanges, partsOld, partsNew]
  | cons p rest ih =>
    intro pre
    cases p with
    | common v =>
      have h := ih (pre ++ v)
      simp only [List.length_append] at h
      simp only [partsToChanges, partsOld, partsNew]
      rw [← List.append_assoc, h, List.append_assoc]
    | removed v =>
      have h := ih (pre ++ v)
      simp only [List.length_append] at h
      simp only [partsToChanges, partsOld, partsNew, List.foldr_cons]
      rw [← List.append_assoc, h]
      show spliceStep ((pre ++ v) ++ partsNew rest) _ = _
      simp only [spliceStep]
      rw [List.append_assoc, List.take_left]
      have hlen : pre.length + v.length = (pre ++ v).length := by simp
      rw [← List.append_assoc, hlen, List.drop_left]
    | added v =>
      have h := ih pre
      simp only [partsToChanges, partsOld, partsNew, List.foldr_cons]
      rw [h]
      show spliceStep (pre ++ partsNew rest) _ = _
      simp only [spliceStep]
      rw [List.take_left, List.drop_left, List.append_assoc]

/-- The generated change list needs no merging: it is already strictly
ascending, so `calculateWordDiff` returns the raw walk output. -/
theorem calculateWordDiff_eq_raw (a b : Str) :
    calculateWordDiff a b = partsToChanges 0 (diffWordsM a b) := by
  rw [calculateWordDiff]
  exact merge_noop _ ((ptc_chain _ 0 (diffWordsM_canon a b) (diffWordsM_nev a b)).imp
    (fun _ _ h => h.1))

/-- Round-trip: applying the full change set of the diff back onto the
original string yields the transformed string. -/
theorem diff_roundtrip (a b : Str) :
    applyChangesToContent a (calculateWordDiff a b) = b := by
  rw [calculateWordDiff_eq_raw]
  have hchain := ptc_chain (diffWordsM a b) 0 (diffWordsM_canon a b) (diffWordsM_nev a b)
  haveI : IsTrans Change (fun c d => c.position.start < d.position.start) :=
    ⟨fun _ _ _ h1 h2 => lt_trans h1 h2⟩
  have hp : List.Pairwise (fun c d => c.position.start < d.position.start)
      (partsToChanges 0 (diffWordsM a b)) :=
    List.chain'_iff_pairwise.mp (hchain.imp (fun _ _ h => h.1))
  rw [applyChangesToContent, sortDesc_eq_reverse _ hp, List.foldl_reverse]
  have h := splice_foldr (diffWordsM a b) []
  simp only [List.length_nil, List.nil_append] at h
  rw [diffWordsM_old] at h
  rw [h, diffWordsM_new]

/-! ## Character-class facts for the tokenizer -/

theorem space_not_word (c : Char) (h : isSpaceChar c = true) : isWordChar c = false := by
  simp only [isSpaceChar, Bool.or_eq_true, decide_eq_true_eq] at h
  rcases h with ((((h | h) | h) | h) | h) | h <;> subst h <;> decide

theorem space_class (c : Char) (h : isSpaceChar c = true) : charClass c = .space := by
  simp [charClass, space_not_word c h, h]

theorem class_space_isSpace (c : Char) (h : charClass c = .space) :
    isSpaceChar c = true := by
  unfold charClass at h
  by_cases h1 : isWordChar c
  · simp [h1] at h
  · by_cases h2 : isSpaceChar c
    · exact h2
    · simp [h1, h2] at h

/-- Kind correctness of the tokenizer: a token is of kind `whitespace`
exactly when its text is all whitespace — whitespace forms its own token
kind and is never discarded. -/
theorem tokenizeF_kind_ws (f : Nat) : ∀ (pos : Nat) (s : Str),
    ∀ t ∈ tokenizeF f pos s,
      (t.kind = TKind.whitespace ↔ ∀ c ∈ t.value, isSpaceChar c = true) := by
  induction f with
  | zero => intro pos s t ht; simp [tokenizeF] at ht
  | succ f ih =>
    intro pos s t ht
    cases s with
    | nil => simp [tokenizeF] at ht
    | cons c cs =>
    simp only [tokenizeF] at ht
    cases ht with
    | head =>
      constructor
      · intro hk d hd
        have hk' : kindOfClass (charClass c) = TKind.whitespace := hk
        have hcs : charClass c = .space := by
          cases hcc : charClass c
          · rw [hcc] at hk'; exact absurd hk' (by simp [kindOfClass])
          · rfl
          · rw [hcc] at hk'; exact absurd hk' (by simp [kindOfClass])
        cases hd with
        | head => exact class_space_isSpace c hcs
        | tail _ hd2 =>
          have hp : charClass d = charClass c := by
            have := List.mem_takeWhile_imp hd2
            simpa using this
          exact class_space_isSpace d (by rw [hp, hcs])
      · intro hall
        have hc : isSpaceChar c = true := hall c (by simp)
        show kindOfClass (charClass c) = TKind.whitespace
        rw [space_class c hc]
        rfl
    | tail _ h2 => exact ih _ _ t h2

/-- An empty record walk means the parts are all common, so both
projections agree. -/
theorem ptc_nil_proj (parts : List DPart) : ∀ (pos : Nat),
    partsToChanges pos parts = [] → partsOld parts = partsNew parts := by
  induction parts with
  | nil => intro pos _; rfl
  | cons p rest ih =>
    intro pos h
    cases p with
    | common v =>
      simp only [partsToChanges] at h
      simp [partsOld, partsNew, ih _ h]
    | removed v => simp [partsToChanges] at h
    | added v => simp [partsToChanges] at h

/-! ## Claims -/

instance {ε α : Type} [DecidableEq ε] [DecidableEq α] : DecidableEq (Except ε α) :=
  fun x y =>
    match x, y with
    | .ok a, .ok b =>
      if h : a = b then isTrue (congrArg Except.ok h)
      else isFalse (fun hh => h (Except.ok.inj hh))
    | .error a, .error b =>
      if h : a = b then isTrue (congrArg Except.error h)
      else isFalse (fun hh => h (Except.error.inj hh))
    | .ok _, .error _ => isFalse (fun hh => Except.noConfusion hh)
    | .error _, .ok _ => isFalse (fun hh => Except.noConfusion hh)

/-- The observable data of a change record (type, position, texts). -/
structure ChangeView where
  type : CType
  start : Nat
  stop : Nat
  original : Str
  suggested : Str
deriving DecidableEq, Repr

def changeData (c : Change) : ChangeView :=
  ⟨c.type, c.position.start, c.position.stop, c.original, c.suggested⟩

/-- C1 — Round-trip: for every content string and recognized category,
applying every change record of the suggestion returned by
`generate(content, category)` to the original string via the reconciliation
splice rule (sort by start descending; addition inserts at start, deletion
removes `[start, end)`, modification replaces `[start, end)`) yields exactly
the suggestion's `suggested` string. -/
theorem generate_roundtrip (content : Str) (type : String) (context : RuleCtx)
    (s : Suggestion) (h : generateSuggestions content type context = .ok s) :
    applyChangesToContent s.original s.changes = s.suggested := by
  rw [generateSuggestions] at h
  cases hsel : selectRules type with
  | none => rw [hsel] at h; exact absurd h (by simp)
  | some rules =>
    rw [hsel] at h
    simp only [Except.ok.injEq] at h
    subst h
    exact diff_roundtrip _ _

/-- The suggestion `generate("hi", "improve")` returns: no rule fires, so
the diff is empty and the confidence is exactly one. -/
def sugHi : Suggestion :=
  { original := chars "hi", suggested := chars "hi", changes := [],
    model := "improvement-v1", confidence := 1 }

/-- Witness for C1 at the concrete input `("hi", "improve")`. -/
theorem generate_roundtrip_witness :
    applyChangesToContent sugHi.original sugHi.changes = sugHi.suggested :=
  generate_roundtrip (chars "hi") "improve" ⟨none⟩ sugHi (by decide)

/-- C6 — Whitespace-only differences: when two strings differ but differ
only in whitespace, the diff still produces a non-empty record list, the
tokenizer classifies exactly the all-whitespace tokens as kind `whitespace`,
and no text is discarded (token values join back to the string). -/
theorem whitespace_only_diff (a b : Str) (hne : a ≠ b)
    (hws : a.filter (fun c => !isSpaceChar c) = b.filter (fun c => !isSpaceChar c)) :
    calculateWordDiff a b ≠ [] ∧
    (∀ t ∈ tokenize a, (t.kind = TKind.whitespace ↔ ∀ c ∈ t.value, isSpaceChar c = true)) ∧
    ((tokenize a).map Token.value).flatten = a := by
  refine ⟨?_, tokenizeF_kind_ws a.length 0 a, tokenVals_join a⟩
  intro hempty
  rw [calculateWordDiff_eq_raw] at hempty
  have hproj := ptc_nil_proj (diffWordsM a b) 0 hempty
  rw [diffWordsM_old, diffWordsM_new] at hproj
  exact hne hproj

/-- Witness for C6 at `("a b", "a  b")`. -/
theorem whitespace_only_diff_witness :
    calculateWordDiff (chars "a b") (chars "a  b") ≠ [] ∧
    (∀ t ∈ tokenize (chars "a b"),
      (t.kind = TKind.whitespace ↔ ∀ c ∈ t.value, isSpaceChar c = true)) ∧
    ((tokenize (chars "a b")).map Token.value).flatten = chars "a b" :=
  whitespace_only_diff (chars "a b") (chars "a  b") (by decide) (by decide)

/-- C7 — Change-record invariants: the diff's record list is sorted by
strictly ascending `position.start` with pairwise disjoint ranges; every
record satisfies `start ≤ end ≤ len(original)`; additions have empty
`originalText` and `start = end`; deletions have empty `suggestedText` and
`end - start = len(originalText)`. -/
theorem change_record_invariants (a b : Str) :
    List.Pairwise recOrder (calculateWordDiff a b) ∧
    ∀ c ∈ calculateWordDiff a b,
      c.position.start ≤ c.position.stop ∧
      c.position.stop ≤ a.length ∧
      (c.type = CType.addition → c.original = [] ∧ c.position.start = c.position.stop) ∧
      (c.type = CType.deletion → c.suggested = [] ∧
        c.position.stop - c.position.start = c.original.length) := by
  haveI : IsTrans Change recOrder :=
    ⟨fun _ _ _ h1 h2 => ⟨lt_trans h1.1 h2.1, le_trans h1.2 (le_of_lt h2.1)⟩⟩
  rw [calculateWordDiff_eq_raw]
  constructor
  · exact List.chain'_iff_pairwise.mp
      (ptc_chain _ 0 (diffWordsM_canon a b) (diffWordsM_nev a b))
  · intro c hc
    have hs := ptc_shape _ _ c hc
    have hub := ptc_ub _ 0 c hc
    have hlen : (partsOld (diffWordsM a b)).length = a.length := by
      rw [diffWordsM_old]
    refine ⟨hs.1, by omega, hs.2.1, hs.2.2.1⟩

/-- C2 — the merge step is dead code: on the spec's own grammar scenario
(`"The team are working on it."` → `"The team is working on it."`) the diff
emits an adjacent deletion/addition pair and `mergeAdjacentChanges` does not
collapse it into a modification, because the addition's anchor always equals
the deletion's `end` while the merge condition compares it with the
deletion's `start`. -/
theorem merge_dead_grammar_scenario :
    (generateSuggestions (chars "The team are working on it.") "grammar" ⟨none⟩).map
      (fun s => (s.suggested, s.changes.map changeData)) =
    .ok (chars "The team is working on it.",
      [ ⟨CType.deletion, 9, 12, chars "are", []⟩,
        ⟨CType.addition, 12, 12, [], chars "is"⟩ ]) := by decide

/-- C3 (counterexample) — the simplify scenario does not produce the claimed
suggested string: `methodologies` is not rewritten to `methods` (the rule
table only maps `methodology`, whose trailing word boundary does not match
inside `methodologies`). -/
theorem simplify_scenario_counterexample :
    (generateSuggestions (chars "We utilize state-of-the-art methodologies.") "simplify"
        ⟨none⟩).map (fun s => s.suggested) ≠
      .ok (chars "We use modern methods.") := by decide

/-- C3 (amended) — `generate("We utilize state-of-the-art methodologies.",
"simplify")` returns suggested text `"We use modern methodologies."`, and
its change records replace `utilize` with `use` and `state-of-the-art` with
`modern` as deletion/addition pairs (the merge step never produces
modification records). -/
theorem simplify_scenario_amended :
    (generateSuggestions (chars "We utilize state-of-the-art methodologies.") "simplify"
        ⟨none⟩).map (fun s => (s.suggested, s.changes.map changeData)) =
    .ok (chars "We use modern methodologies.",
      [ ⟨CType.deletion, 3, 10, chars "utilize", []⟩,
        ⟨CType.addition, 10, 10, [], chars "use"⟩,
        ⟨CType.deletion, 11, 27, chars "state-of-the-art", []⟩,
        ⟨CType.addition, 27, 27, [], chars "modern"⟩ ]) := by decide

/-- C4 (counterexample) — an unknown category fails, but with error code
`GENERATION_FAILED` (the service's catch-all wrapper), not
`UNKNOWN_CATEGORY`; no such code exists anywhere in the repository. -/
theorem unknown_category_counterexample :
    generateSuggestions (chars "hello") "translate" ⟨none⟩ =
      .error { status := 500, code := "GENERATION_FAILED",
               message := "Failed to generate suggestions",
               reason := "Unknown suggestion type: translate" } ∧
    "GENERATION_FAILED" ≠ "UNKNOWN_CATEGORY" := ⟨by decide, by decide⟩

/-- C4 (amended) — for every category outside
`{improve, grammar, simplify, expand}` and every content and context,
`generate` fails (no default rule-set fallback) with the `GENERATION_FAILED`
error object wrapping `Unknown suggestion type: <category>` as
`details.reason`. -/
theorem unknown_category_error (content : Str) (context : RuleCtx) (type : String)
    (h1 : type ≠ "improve") (h2 : type ≠ "grammar")
    (h3 : type ≠ "simplify") (h4 : type ≠ "expand") :
    generateSuggestions content type context =
      .error { status := 500, code := "GENERATION_FAILED",
               message := "Failed to generate suggestions",
               reason := "Unknown suggestion type: " ++ type } := by
  rw [generateSuggestions, selectRules]
  simp [h1, h2, h3, h4]

/-- Witness for C4's amended claim at category `"translate"`. -/
theorem unknown_category_error_witness :
    generateSuggestions (chars "x") "translate" ⟨none⟩ =
      .error { status := 500, code := "GENERATION_FAILED",
               message := "Failed to generate suggestions",
               reason := "Unknown suggestion type: translate" } :=
  unknown_category_error (chars "x") ⟨none⟩ "translate"
    (by decide) (by decide) (by decide) (by decide)

/-- Two overlapping modification records over `"abcdef"`: `[0,4)→XY` and
`[2,6)→PQ`. -/
def ovFirst : Change :=
  { type := .modification, position := ⟨0, 4⟩, original := chars "abcd",
    suggested := chars "XY", reason := "Enhances clarity" }

def ovSecond : Change :=
  { type := .modification, position := ⟨2, 6⟩, original := chars "cdef",
    suggested := chars "PQ", reason := "Enhances clarity" }

/-- C5 (counterexample) — `applyChangesToContent` does not reject an
accepted set with overlapping ranges: on `"abcdef"` with the overlapping
records `[0,4)→XY` and `[2,6)→PQ` it silently returns the corrupt spliced
string `"XY"` instead of an `OverlappingChanges` error (no overlap check
exists in the code). -/
theorem overlap_not_rejected_counterexample :
    ovFirst.position.start < ovSecond.position.stop ∧
    ovSecond.position.start < ovFirst.position.stop ∧
    applyChangesToContent (chars "abcdef") [ovFirst, ovSecond] = chars "XY" := by
  decide

/-- C5 (amended) — overlapping records are not detected: every pair of
records, overlapping or not, is spliced in descending-start order and a
plain string is returned; the record with the larger start is applied
first, then the other. -/
theorem overlap_spliced_anyway (original : Str) (c1 c2 : Change)
    (h : c1.position.start < c2.position.start) :
    applyChangesToContent original [c1, c2] =
      spliceStep (spliceStep original c2) c1 := by
  rw [applyChangesToContent]
  have hs : sortByStartDesc [c1, c2] = [c2, c1] := by
    show insertDesc c2 (insertDesc c1 []) = [c2, c1]
    show insertDesc c2 [c1] = [c2, c1]
    rw [insertDesc, if_neg (by omega)]
  rw [hs]
  rfl

/-- Witness for C5's amended claim at the overlapping pair over
`"abcdef"`. -/
theorem overlap_spliced_anyway_witness :
    ovFirst.position.start < ovSecond.position.start ∧
    applyChangesToContent (chars "abcdef") [ovFirst, ovSecond] =
      spliceStep (spliceStep (chars "abcdef") ovSecond) ovFirst :=
  ⟨by decide, overlap_spliced_anyway (chars "abcdef") ovFirst ovSecond (by decide)⟩

/-- The claim side of C8's size penalty: a fixed increment of 0.01 per
change whose larger side exceeds 20 characters. -/
def sizePenaltySpec (changes : List Change) : ℚ :=
  ((changes.filter (fun c => 20 < max c.original.length c.suggested.length)).length : ℚ) / 100

/-- The claim side of C8's confidence formula:
`max(0.5, 0.95 - 0.02·len(changes) - sizePenalty)` rounded to two decimal
places, with the empty change list yielding exactly 1. -/
def confSpec (changes : List Change) : ℚ :=
  if changes = [] then 1
  else jsRound2 (max (1 / 2)
    ((95 : ℚ) / 100 - (2 : ℚ) / 100 * changes.length - sizePenaltySpec changes))

theorem sizePenalty_foldl (changes : List Change) : ∀ q : ℚ,
    changes.foldl (fun sum c =>
      sum + (if 20 < max c.original.length c.suggested.length then (1 : ℚ) / 100 else 0)) q
      = q + sizePenaltySpec changes := by
  induction changes with
  | nil => intro q; simp [sizePenaltySpec]
  | cons c cs ih =>
    intro q
    simp only [List.foldl_cons]
    rw [ih]
    by_cases h : 20 < max c.original.length c.suggested.length
    · simp only [sizePenaltySpec, List.filter_cons, if_pos h, decide_eq_true h,
        if_pos, List.length_cons]
      push_cast
      ring
    · simp only [sizePenaltySpec, List.filter_cons, if_neg h, decide_eq_false h,
        Bool.false_eq_true, if_false]
      simp

/-- C8 — Confidence score: `calculateConfidence` computes exactly the
claim's formula (`max(0.5, 0.95 - 0.02·n - sizePenalty)` rounded to two
decimals; size penalty 0.01 per change whose larger side exceeds 20
characters; empty list exactly 1), and the result always lies in `[0, 1]`. -/
theorem confidence_formula (changes : List Change) :
    calculateConfidence changes = confSpec changes ∧
    0 ≤ calculateConfidence changes ∧ calculateConfidence changes ≤ 1 := by
  have heq : calculateConfidence changes = confSpec changes := by
    rw [calculateConfidence, confSpec]
    by_cases h : changes = []
    · simp [h]
    · simp only [if_neg h]
      rw [sizePenalty_foldl changes 0, zero_add]
      congr 2
      ring
  have hb : 0 ≤ confSpec changes ∧ confSpec changes ≤ 1 := by
    rw [confSpec]
    by_cases h : changes = []
    · simp [h]
    · simp only [if_neg h]
      have hn : (0 : ℚ) ≤ (2 : ℚ) / 100 * changes.length := by positivity
      have hsp : (0 : ℚ) ≤ sizePenaltySpec changes := by
        unfold sizePenaltySpec; positivity
      set v := max ((1 : ℚ) / 2)
        ((95 : ℚ) / 100 - (2 : ℚ) / 100 * changes.length - sizePenaltySpec changes) with hv
      have h1 : (1 : ℚ) / 2 ≤ v := le_max_left _ _
      have h2 : v ≤ 95 / 100 := by
        apply max_le
        · norm_num
        · linarith
      have hf1 : (50 : ℤ) ≤ jsRound (v * 100) := by
        rw [jsRound]
        apply Int.le_floor.mpr
        push_cast
        linarith
      have hf2 : jsRound (v * 100) ≤ 95 := by
        rw [jsRound]
        have hlt : v * 100 + 1 / 2 < ((96 : ℤ) : ℚ) := by push_cast; linarith
        exact Int.lt_add_one_iff.mp (Int.floor_lt.mpr hlt)
      constructor
      · rw [jsRound2]
        apply div_nonneg _ (by norm_num)
        exact_mod_cast le_trans (by norm_num : (0 : ℤ) ≤ 50) hf1
      · rw [jsRound2]
        rw [div_le_one (by norm_num)]
        exact_mod_cast le_trans hf2 (by norm_num)
  exact ⟨heq, heq ▸ hb.1, heq ▸ hb.2⟩

/-- C9 (counterexample) — the classifier's labels are not the claim's
lower-case strings: the length-ratio default for a shrinking modification is
`Simplifies expression`, not `simplifies expression`. -/
theorem reason_label_counterexample :
    getReasonForChange CType.modification (chars "aaaaaaaa") (chars "aa") =
      "Simplifies expression" ∧
    "Simplifies expression" ≠ "simplifies expression" := ⟨by decide, by decide⟩

/-- C9 (amended) — reason classifier defaults, with the code's exact
labels: for a modification matched by neither the grammar tier nor the
word-choice tier, the label is `Simplifies expression` when
`len(original) > 1.5·len(suggested)`, `Adds more detail` when
`len(suggested) > 1.5·len(original)`, else `Enhances clarity`; an addition
gets `Adds descriptive emphasis` when it matches
`innovative|exceptional|comprehensive`, else `Adds additional context`; a
deletion matching the filler set `very|really|quite|just` gets
`Removes unnecessary modifier`, else `Simplifies phrasing`.  A reason is
always produced. -/
theorem reason_classifier_defaults (o s : Str)
    (hg : isGrammarCorrection (lowerS o) (lowerS s) = false)
    (hw : isWordChoiceImprovement (lowerS o) (lowerS s) = false) :
    (getReasonForChange CType.modification o s =
      if o.length * 2 > s.length * 3 then "Simplifies expression"
      else if s.length * 2 > o.length * 3 then "Adds more detail"
      else "Enhances clarity") ∧
    (getReasonForChange CType.addition o s =
      if testAnyWordB [ "innovative", "exceptional", "comprehensive" ] (lowerS s)
      then "Adds descriptive emphasis" else "Adds additional context") ∧
    (getReasonForChange CType.deletion o s =
      if testAnyWordB [ "very", "really", "quite", "just" ] (lowerS o)
      then "Removes unnecessary modifier" else "Simplifies phrasing") := by
  refine ⟨?_, rfl, rfl⟩
  simp only [getReasonForChange, hg, hw, Bool.false_eq_true, if_false]

/-- Witness for C9's amended claim at `("aaaaaaaa", "aa")`. -/
theorem reason_classifier_defaults_witness :
    (getReasonForChange CType.modification (chars "aaaaaaaa") (chars "aa") =
      if (chars "aaaaaaaa").length * 2 > (chars "aa").length * 3 then "Simplifies expression"
      else if (chars "aa").length * 2 > (chars "aaaaaaaa").length * 3 then "Adds more detail"
      else "Enhances clarity") ∧
    (getReasonForChange CType.addition (chars "aaaaaaaa") (chars "aa") =
      if testAnyWordB [ "innovative", "exceptional", "comprehensive" ] (lowerS (chars "aa"))
      then "Adds descriptive emphasis" else "Adds additional context") ∧
    (getReasonForChange CType.deletion (chars "aaaaaaaa") (chars "aa") =
      if testAnyWordB [ "very", "really", "quite", "just" ] (lowerS (chars "aaaaaaaa"))
      then "Removes unnecessary modifier" else "Simplifies phrasing") :=
  reason_classifier_defaults (chars "aaaaaaaa") (chars "aa") (by decide) (by decide)

/-! ## C10 — totality of the reconciler -/

def sumSuggested (cs : List Change) : Nat :=
  (cs.map (fun c => c.suggested.length)).sum

theorem spliceStep_le (s : Str) (c : Change) :
    (spliceStep s c).length ≤ 2 * s.length + c.suggested.length := by
  cases htype : c.type <;>
    simp [spliceStep, htype, List.length_take, List.length_drop,
      List.length_append] <;> omega

theorem spliceStep_length (s : Str) (c : Change) :
    (spliceStep s c).length =
      min c.position.start s.length +
      (if c.type = CType.deletion then 0 else c.suggested.length) +
      (s.length - (if c.type = CType.addition then min c.position.start s.length
                   else min c.position.stop s.length)) := by
  cases htype : c.type <;>
    simp [spliceStep, htype, List.length_take, List.length_drop,
      List.length_append] <;> omega

theorem foldl_splice_bound (l : List Change) : ∀ s : Str,
    (l.foldl spliceStep s).length ≤ 2 ^ l.length * (s.length + sumSuggested l) := by
  induction l with
  | nil => intro s; simp [sumSuggested]
  | cons c cs ih =>
    intro s
    have h1 := ih (spliceStep s c)
    have h2 := spliceStep_le s c
    have h3 : sumSuggested (c :: cs) = c.suggested.length + sumSuggested cs := by
      simp [sumSuggested]
    simp only [List.foldl_cons, List.length_cons, h3]
    calc (cs.foldl spliceStep (spliceStep s c)).length
        ≤ 2 ^ cs.length * ((spliceStep s c).length + sumSuggested cs) := h1
      _ ≤ 2 ^ cs.length * (2 * (s.length + (c.suggested.length + sumSuggested cs))) := by
          apply Nat.mul_le_mul_left
          omega
      _ = 2 ^ (cs.length + 1) * (s.length + (c.suggested.length + sumSuggested cs)) := by
          rw [Nat.pow_succ]
          ring

theorem insertDesc_length (c : Change) (l : List Change) :
    (insertDesc c l).length = l.length + 1 := by
  induction l with
  | nil => rfl
  | cons d ds ih =>
    simp only [insertDesc]
    split
    · simp only [List.length_cons, ih]
    · simp

theorem insertDesc_sum (c : Change) (l : List Change) :
    sumSuggested (insertDesc c l) = c.suggested.length + sumSuggested l := by
  induction l with
  | nil => simp [insertDesc, sumSuggested]
  | cons d ds ih =>
    simp only [insertDesc]
    split
    · simp only [sumSuggested, List.map_cons, List.sum_cons] at ih ⊢
      omega
    · simp [sumSuggested]

theorem sortDesc_length (cs : List Change) :
    (sortByStartDesc cs).length = cs.length := by
  suffices h : ∀ acc : List Change,
      (cs.foldl (fun a c => insertDesc c a) acc).length = acc.length + cs.length by
    simpa [sortByStartDesc] using h []
  induction cs with
  | nil => intro acc; simp
  | cons c cs' ih =>
    intro acc
    simp only [List.foldl_cons, List.length_cons]
    rw [ih (insertDesc c acc), insertDesc_length]
    omega

theorem sortDesc_sum (cs : List Change) :
    sumSuggested (sortByStartDesc cs) = sumSuggested cs := by
  suffices h : ∀ acc : List Change,
      sumSuggested (cs.foldl (fun a c => insertDesc c a) acc) =
        sumSuggested acc + sumSuggested cs by
    simpa [sortByStartDesc, sumSuggested] using h []
  induction cs with
  | nil => intro acc; simp [sumSuggested]
  | cons c cs' ih =>
    intro acc
    simp only [List.foldl_cons]
    rw [ih (insertDesc c acc), insertDesc_sum]
    simp only [sumSuggested, List.map_cons, List.sum_cons]
    omega

/-- C10 — reconciliation totality: `applyChangesToContent` is a total
function of its two arguments.  For every original string and every change
list — overlapping ranges and out-of-range positions included — it returns
a string, bounded in length; and each splice obeys the exact clamped-length
law of JS `slice` (the `min` terms), so out-of-range indices clamp instead
of faulting.  No input is rejected with an error: the code has no error
path. -/
theorem reconciliation_total :
    (∀ (original : Str) (changes : List Change),
      (applyChangesToContent original changes).length ≤
        2 ^ changes.length * (original.length + sumSuggested changes)) ∧
    (∀ (s : Str) (c : Change),
      (spliceStep s c).length =
        min c.position.start s.length +
        (if c.type = CType.deletion then 0 else c.suggested.length) +
        (s.length - (if c.type = CType.addition then min c.position.start s.length
                     else min c.position.stop s.length))) := by
  constructor
  · intro original changes
    rw [applyChangesToContent]
    have h := foldl_splice_bound (sortByStartDesc changes) original
    rw [sortDesc_length, sortDesc_sum] at h
    exact h
  · exact spliceStep_length

end Milkdown
